import Mathlib

/-!
Shallow embedding of `exporter.py` from hg-export-tool.

The core logic is `fix_branches`: it queries the topological heads of a
mercurial repository (`get_heads`), groups them by branch, sorts each group
newest-first by timestamp (Python's `list.sort` with `reverse=True` is a
stable descending sort), and renames every head but the first of each group,
using the head's bookmark when present and a synthesized
`<branch>-anonymous-<n>` name otherwise.

The external query `get_heads` is modelled by passing its result (a list of
`Head` records) as an argument.  The surrounding process logic
(`switch_directory`, `init_git_repo`, `copy_hg_repo`, `process_repo`, the
`--bash` scan in `main`) is modelled as an exception-monad over a small
filesystem `World`.
-/

/-- One topological head as produced by `get_heads`: commit hash, branch
name, normalized timestamp (`date[0] + date[1]`), and the first bookmark if
any. -/
structure Head where
  hash : String
  branch : String
  timestamp : Int
  bookmark : Option String
  deriving DecidableEq, Repr

/-- `heads_by_branch[b]`: the heads whose `branch` field is `b`, in the
order `get_heads` returned them (the python code appends each head to its
branch's list while iterating over `all_heads`). -/
def headsOfBranch (heads : List Head) (b : String) : List Head :=
  heads.filter (fun h => h.branch == b)

/-- The branch names occurring among the heads, first occurrence first,
without duplicates (the keys of `heads_by_branch`). -/
def dedupFirst : List String → List String
  | [] => []
  | b :: rest => b :: (dedupFirst rest).filter (fun x => x ≠ b)

def branchKeys (heads : List Head) : List String :=
  dedupFirst (heads.map (fun h => h.branch))

/-- Insert a head into a list already sorted by descending timestamp,
placing it before the first element with a strictly smaller timestamp, so
that among equal timestamps the element inserted earlier in the original
order stays first. -/
def insertDesc (h : Head) : List Head → List Head
  | [] => [h]
  | x :: xs => if h.timestamp < x.timestamp then x :: insertDesc h xs else h :: x :: xs

/-- `heads.sort(reverse=True, key=lambda head: head['timestamp'])`:
a stable sort by descending timestamp. -/
def sortDesc : List Head → List Head
  | [] => []
  | h :: t => insertDesc h (sortDesc t)

/-- One branch group after sorting: the heads of branch `b` newest first. -/
def groupHeads (heads : List Head) (b : String) : List Head :=
  sortDesc (headsOfBranch heads b)

/-- `branch + '-anonymous-%d' % counter.next()`. -/
def synthName (b : String) (n : Nat) : String :=
  b ++ "-anonymous-" ++ toString n

/-- The names assigned to the secondary heads of a group, in loop order:
the head's bookmark when present, otherwise `synthName b n` where the
counter `n` starts at 1 and advances only when a synthesized name is
consumed (`counter.next()` is only called in the `else` branch). -/
def newNames (b : String) : Nat → List Head → List (Head × String)
  | _, [] => []
  | n, h :: rest =>
    match h.bookmark with
    | some bm => (h, bm) :: newNames b n rest
    | none => (h, synthName b n) :: newNames b (n + 1) rest

/-- The renames performed for branch `b`: all heads of the sorted group
except the first (`heads[1:]`), paired with their new branch names. -/
def groupRenames (heads : List Head) (b : String) : List (Head × String) :=
  newNames b 1 (groupHeads heads b).tail

/-- Every rename `fix_branches` performs, over all branch groups. -/
def renamePlan (heads : List Head) : List (Head × String) :=
  (branchKeys heads).flatMap (groupRenames heads)

/-- The final branch-name assignment after `fix_branches`: the first head of
each sorted group keeps the original branch name, every other head gets its
new name from `newNames`. -/
def groupAssignment (heads : List Head) (b : String) : List (Head × String) :=
  match groupHeads heads b with
  | [] => []
  | p :: rest => (p, b) :: newNames b 1 rest

def finalAssignment (heads : List Head) : List (Head × String) :=
  (branchKeys heads).flatMap (groupAssignment heads)

section SortLemmas

theorem insertDesc_perm (h : Head) (l : List Head) :
    (insertDesc h l).Perm (h :: l) := by
  induction l with
  | nil => simp [insertDesc]
  | cons x xs ih =>
    simp only [insertDesc]
    split
    · exact ((ih.cons x).trans (List.Perm.swap h x xs))
    · exact List.Perm.refl _

theorem sortDesc_perm (l : List Head) : (sortDesc l).Perm l := by
  induction l with
  | nil => simp [sortDesc]
  | cons h t ih => exact (insertDesc_perm h (sortDesc t)).trans (ih.cons h)

theorem mem_sortDesc {x : Head} {l : List Head} : x ∈ sortDesc l ↔ x ∈ l :=
  (sortDesc_perm l).mem_iff

theorem length_sortDesc (l : List Head) : (sortDesc l).length = l.length :=
  (sortDesc_perm l).length_eq

theorem count_sortDesc (x : Head) (l : List Head) :
    (sortDesc l).count x = l.count x :=
  (sortDesc_perm l).count_eq x

theorem insertDesc_pairwise {h : Head} {l : List Head}
    (hl : l.Pairwise (fun a b => b.timestamp ≤ a.timestamp)) :
    (insertDesc h l).Pairwise (fun a b => b.timestamp ≤ a.timestamp) := by
  induction l with
  | nil => simp [insertDesc]
  | cons x xs ih =>
    simp only [insertDesc]
    rcases hl with _ | ⟨hx, hxs⟩
    by_cases hlt : h.timestamp < x.timestamp
    · rw [if_pos hlt]
      refine List.Pairwise.cons ?_ (ih hxs)
      intro y hy
      rcases List.mem_cons.mp ((insertDesc_perm h xs).mem_iff.mp hy) with rfl | hy
      · omega
      · exact hx y hy
    · rw [if_neg hlt]
      refine List.Pairwise.cons ?_ (List.Pairwise.cons hx hxs)
      intro y hy
      rcases List.mem_cons.mp hy with rfl | hy
      · omega
      · have := hx y hy
        omega

theorem sortDesc_pairwise (l : List Head) :
    (sortDesc l).Pairwise (fun a b => b.timestamp ≤ a.timestamp) := by
  induction l with
  | nil => simp [sortDesc]
  | cons h t ih => exact insertDesc_pairwise ih

theorem filter_insertDesc (h : Head) (l : List Head) (t : Int) :
    (insertDesc h l).filter (fun x => x.timestamp == t) =
      if h.timestamp = t then h :: l.filter (fun x => x.timestamp == t)
      else l.filter (fun x => x.timestamp == t) := by
  induction l with
  | nil => by_cases ht : h.timestamp = t <;> simp [insertDesc, List.filter_cons, ht]
  | cons x xs ih =>
    simp only [insertDesc]
    by_cases hlt : h.timestamp < x.timestamp
    · rw [if_pos hlt]
      by_cases ht : h.timestamp = t
      · have hxt : ¬ (x.timestamp = t) := by omega
        simp [List.filter_cons, hxt, ih, ht]
      · simp [List.filter_cons, ih, ht]
    · rw [if_neg hlt]
      by_cases ht : h.timestamp = t <;> simp [List.filter_cons, ht]

/-- Stability of the descending sort: restricted to any fixed timestamp,
the sorted list lists the heads in their original order. -/
theorem sortDesc_stable (l : List Head) (t : Int) :
    (sortDesc l).filter (fun x => x.timestamp == t) =
      l.filter (fun x => x.timestamp == t) := by
  induction l with
  | nil => simp [sortDesc]
  | cons h rest ih =>
    rw [sortDesc, filter_insertDesc, List.filter_cons]
    by_cases ht : h.timestamp = t <;> simp [ht, ih]

end SortLemmas

section GroupLemmas

theorem mem_dedupFirst {x : String} : ∀ {l : List String}, x ∈ dedupFirst l ↔ x ∈ l := by
  intro l
  induction l with
  | nil => simp [dedupFirst]
  | cons b rest ih =>
    simp only [dedupFirst, List.mem_cons, List.mem_filter, decide_eq_true_eq]
    constructor
    · rintro (rfl | ⟨hx, _⟩)
      · exact .inl rfl
      · exact .inr (ih.mp hx)
    · rintro (rfl | hx)
      · exact .inl rfl
      · by_cases hxb : x = b
        · exact .inl hxb
        · exact .inr ⟨ih.mpr hx, hxb⟩

theorem nodup_dedupFirst : ∀ (l : List String), (dedupFirst l).Nodup := by
  intro l
  induction l with
  | nil => simp [dedupFirst]
  | cons b rest ih =>
    simp only [dedupFirst]
    refine List.Nodup.cons ?_ (ih.filter _)
    intro hb
    have := List.of_mem_filter hb
    simp at this

theorem nodup_branchKeys (heads : List Head) : (branchKeys heads).Nodup :=
  nodup_dedupFirst _

theorem mem_branchKeys {heads : List Head} {b : String} :
    b ∈ branchKeys heads ↔ ∃ h ∈ heads, h.branch = b := by
  simp [branchKeys, mem_dedupFirst, List.mem_map, eq_comm]

theorem mem_headsOfBranch {heads : List Head} {b : String} {h : Head} :
    h ∈ headsOfBranch heads b ↔ h ∈ heads ∧ h.branch = b := by
  simp [headsOfBranch]

theorem newNames_map_fst (b : String) : ∀ (n : Nat) (l : List Head),
    (newNames b n l).map Prod.fst = l := by
  intro n l
  induction l generalizing n with
  | nil => simp [newNames]
  | cons h rest ih =>
    cases hb : h.bookmark <;> simp [newNames, hb, ih]

theorem fst_mem_of_mem_newNames {b s : String} {h : Head} {n : Nat} {l : List Head}
    (hmem : (h, s) ∈ newNames b n l) : h ∈ l := by
  have := List.mem_map_of_mem Prod.fst hmem
  rwa [newNames_map_fst] at this

theorem newNames_bookmark {b bm s : String} {h : Head} :
    ∀ {n : Nat} {l : List Head}, (h, s) ∈ newNames b n l → h.bookmark = some bm → s = bm := by
  intro n l
  induction l generalizing n with
  | nil => simp [newNames]
  | cons x rest ih =>
    intro hmem hb
    cases hx : x.bookmark with
    | some bm' =>
      simp only [newNames, hx, List.mem_cons, Prod.mk.injEq] at hmem
      rcases hmem with ⟨rfl, rfl⟩ | hmem
      · rw [hx] at hb
        injection hb
      · exact ih hmem hb
    | none =>
      simp only [newNames, hx, List.mem_cons, Prod.mk.injEq] at hmem
      rcases hmem with ⟨rfl, rfl⟩ | hmem
      · rw [hx] at hb
        cases hb
      · exact ih hmem hb

theorem newNames_mem_exists {b : String} {h : Head} :
    ∀ {n : Nat} {l : List Head}, h ∈ l → ∃ s, (h, s) ∈ newNames b n l := by
  intro n l
  induction l generalizing n with
  | nil => simp
  | cons x rest ih =>
    intro hmem
    rcases List.mem_cons.mp hmem with rfl | hmem
    · cases hx : h.bookmark with
      | some bm => exact ⟨bm, by simp [newNames, hx]⟩
      | none => exact ⟨synthName b n, by simp [newNames, hx]⟩
    · cases hx : x.bookmark with
      | some bm =>
        obtain ⟨s, hs⟩ := ih (n := n) hmem
        exact ⟨s, by simp [newNames, hx]; right; exact hs⟩
      | none =>
        obtain ⟨s, hs⟩ := ih (n := n + 1) hmem
        exact ⟨s, by simp [newNames, hx]; right; exact hs⟩

theorem newNames_synth (b : String) (h : Head) (post : List Head)
    (hb : h.bookmark = none) :
    ∀ (n : Nat) (pre : List Head),
      (h, synthName b (n + pre.countP (fun x => x.bookmark.isNone))) ∈
        newNames b n (pre ++ h :: post) := by
  intro n pre
  induction pre generalizing n with
  | nil => simp [newNames, hb]
  | cons x rest ih =>
    cases hx : x.bookmark with
    | some bm =>
      have hcnt : (x :: rest).countP (fun x => x.bookmark.isNone) =
          rest.countP (fun x => x.bookmark.isNone) := by
        simp [List.countP_cons, hx]
      rw [hcnt, List.cons_append]
      simp only [newNames, hx]
      exact List.mem_cons_of_mem _ (ih n)
    | none =>
      have hcnt : n + (x :: rest).countP (fun x => x.bookmark.isNone) =
          (n + 1) + rest.countP (fun x => x.bookmark.isNone) := by
        simp [List.countP_cons, hx]
        omega
      rw [hcnt, List.cons_append]
      simp only [newNames, hx]
      exact List.mem_cons_of_mem _ (ih (n + 1))

theorem mem_renamePlan_iff {heads : List Head} {p : Head × String} :
    p ∈ renamePlan heads ↔ ∃ b ∈ branchKeys heads, p ∈ groupRenames heads b := by
  simp [renamePlan, List.mem_flatMap]

theorem mem_finalAssignment_iff {heads : List Head} {p : Head × String} :
    p ∈ finalAssignment heads ↔ ∃ b ∈ branchKeys heads, p ∈ groupAssignment heads b := by
  simp [finalAssignment, List.mem_flatMap]

end GroupLemmas

/-- C5: within each branch group, sorting newest-first is a stable descending
sort: the sorted group is a permutation of the heads the Source Inspector
returned for the branch, timestamps are non-increasing along it, and any two
heads with equal timestamps appear in the same relative order the inspector
returned them (the list of heads at each fixed timestamp is unchanged). -/
theorem C5_stable_descending_sort (heads : List Head) (b : String) :
    (groupHeads heads b).Perm (headsOfBranch heads b) ∧
    (groupHeads heads b).Pairwise (fun a c => c.timestamp ≤ a.timestamp) ∧
    ∀ t : Int, (groupHeads heads b).filter (fun x => x.timestamp == t) =
      (headsOfBranch heads b).filter (fun x => x.timestamp == t) :=
  ⟨sortDesc_perm _, sortDesc_pairwise _, fun t => sortDesc_stable _ t⟩

theorem sortDesc_head_of_strict_max {l : List Head} {h : Head}
    (hmem : h ∈ l) (hmax : ∀ x ∈ l, x = h ∨ x.timestamp < h.timestamp) :
    ∃ t, sortDesc l = h :: t := by
  have hmem' : h ∈ sortDesc l := mem_sortDesc.mpr hmem
  have hsorted := sortDesc_pairwise l
  cases hs : sortDesc l with
  | nil => rw [hs] at hmem'; cases hmem'
  | cons y t =>
    refine ⟨t, ?_⟩
    rw [hs] at hmem' hsorted
    have hy : y ∈ l := mem_sortDesc.mp (by rw [hs]; exact List.mem_cons_self y t)
    by_cases hyh : y = h
    · rw [hyh]
    · rcases List.mem_cons.mp hmem' with rfl | hht
      · exact absurd rfl hyh
      · have h1 : h.timestamp ≤ y.timestamp := (List.pairwise_cons.mp hsorted).1 h hht
        rcases hmax y hy with rfl | h2
        · exact absurd rfl hyh
        · omega

/-- C2: in each branch group, the head with the strictly greatest timestamp
keeps its original branch name (it appears in the final assignment with that
name and in no rename), while every other head of the group is renamed (it
appears in the rename plan with some new name).  The third hypothesis says
the maximal head occurs only once among the heads of its branch, which is
the case for real repositories where the inspector lists each head once. -/
theorem C2_newest_head_keeps_name (heads : List Head) (h : Head)
    (hmem : h ∈ heads)
    (hmax : ∀ x ∈ heads, x.branch = h.branch → x = h ∨ x.timestamp < h.timestamp)
    (honce : (headsOfBranch heads h.branch).count h = 1) :
    (h, h.branch) ∈ finalAssignment heads ∧
    (∀ s, (h, s) ∉ renamePlan heads) ∧
    (∀ x ∈ heads, x.branch = h.branch → x ≠ h → ∃ s, (x, s) ∈ renamePlan heads) := by
  have hkey : h.branch ∈ branchKeys heads := mem_branchKeys.mpr ⟨h, hmem, rfl⟩
  have hgmem : h ∈ headsOfBranch heads h.branch := mem_headsOfBranch.mpr ⟨hmem, rfl⟩
  have hgmax : ∀ x ∈ headsOfBranch heads h.branch, x = h ∨ x.timestamp < h.timestamp := by
    intro x hx
    obtain ⟨hx1, hx2⟩ := mem_headsOfBranch.mp hx
    exact hmax x hx1 hx2
  obtain ⟨t, ht⟩ := sortDesc_head_of_strict_max hgmem hgmax
  have hg : groupHeads heads h.branch = h :: t := ht
  have hnt : h ∉ t := by
    have h1 : (groupHeads heads h.branch).count h = 1 := by
      rw [show groupHeads heads h.branch = sortDesc (headsOfBranch heads h.branch) from rfl,
        count_sortDesc, honce]
    rw [hg, List.count_cons_self] at h1
    exact List.count_eq_zero.mp (by omega)
  refine ⟨?_, ?_, ?_⟩
  · refine mem_finalAssignment_iff.mpr ⟨h.branch, hkey, ?_⟩
    simp [groupAssignment, hg]
  · intro s hs
    obtain ⟨b, hbk, hgr⟩ := mem_renamePlan_iff.mp hs
    have htl : h ∈ (groupHeads heads b).tail := by
      have := fst_mem_of_mem_newNames (b := b) (s := s) (n := 1) hgr
      exact this
    have hbr : b = h.branch := by
      have h1 : h ∈ groupHeads heads b := List.mem_of_mem_tail htl
      have h2 : h ∈ headsOfBranch heads b := mem_sortDesc.mp h1
      exact ((mem_headsOfBranch.mp h2).2).symm
    rw [hbr, hg] at htl
    exact hnt htl
  · intro x hx hxbr hxh
    have hxg : x ∈ groupHeads heads h.branch :=
      mem_sortDesc.mpr (mem_headsOfBranch.mpr ⟨hx, hxbr⟩)
    rw [hg] at hxg
    rcases List.mem_cons.mp hxg with rfl | hxt
    · exact absurd rfl hxh
    · obtain ⟨s, hs⟩ := newNames_mem_exists (b := h.branch) (n := 1) hxt
      refine ⟨s, mem_renamePlan_iff.mpr ⟨h.branch, hkey, ?_⟩⟩
      have : (groupHeads heads h.branch).tail = t := by rw [hg]; rfl
      simpa [groupRenames, this] using hs

/-- The heads used in the C2 witness: three heads of branch `default` at
timestamps 1 < 2 < 3. -/
def wT1 : Head := ⟨"a1", "default", 1, none⟩

def wT2 : Head := ⟨"a2", "default", 2, none⟩

def wT3 : Head := ⟨"a3", "default", 3, none⟩

def exC2 : List Head := [wT1, wT2, wT3]

theorem C2_witness :
    (wT3, "default") ∈ finalAssignment exC2 ∧
    (wT3, "default-anonymous-1") ∉ renamePlan exC2 ∧
    (∃ s, (wT1, s) ∈ renamePlan exC2) ∧
    (∃ s, (wT2, s) ∈ renamePlan exC2) := by
  have h := C2_newest_head_keeps_name exC2 wT3 (by decide) (by decide) (by decide)
  exact ⟨h.1, h.2.1 "default-anonymous-1",
    h.2.2 wT1 (by decide) (by decide) (by decide),
    h.2.2 wT2 (by decide) (by decide) (by decide)⟩

/-- C3: every entry of the rename plan whose head carries a bookmark is
renamed to exactly that bookmark name, never to a synthesized name. -/
theorem C3_bookmark_precedence (heads : List Head) (h : Head) (s bm : String)
    (hmem : (h, s) ∈ renamePlan heads) (hb : h.bookmark = some bm) :
    s = bm := by
  obtain ⟨b, hbk, hg⟩ := mem_renamePlan_iff.mp hmem
  exact newNames_bookmark hg hb

/-- Heads for the C3 witness: a secondary head of `default` carrying
bookmark `foo`. -/
def wB1 : Head := ⟨"b1", "default", 5, none⟩

def wB2 : Head := ⟨"b2", "default", 3, some "foo"⟩

def exC3 : List Head := [wB1, wB2]

theorem C3_witness :
    (wB2, "foo") ∈ renamePlan exC3 ∧ "foo" = "foo" :=
  ⟨by decide, C3_bookmark_precedence exC3 wB2 "foo" "foo" (by decide) rfl⟩

/-- Heads exhibiting the C4 counterexample: branch `default` with a primary
head at timestamp 30, a bookmarked secondary at 20 and a bookmark-less
secondary at 10. -/
def wP : Head := ⟨"c1", "default", 30, none⟩

def wQ : Head := ⟨"c2", "default", 20, some "bm"⟩

def wR : Head := ⟨"c3", "default", 10, none⟩

def exC4 : List Head := [wP, wQ, wR]

/-- C4 counterexample: the bookmark-less head `wR` is the second secondary
head processed in group order, so under the claim (counter incremented once
per secondary head processed) its name would be `default-anonymous-2`; the
code instead assigns `default-anonymous-1`, because `counter.next()` is only
called when a synthesized name is actually consumed. -/
theorem C4_counterexample :
    (wR, "default-anonymous-1") ∈ renamePlan exC4 ∧
    (wR, "default-anonymous-2") ∉ renamePlan exC4 ∧
    ¬ ∀ s, (wR, s) ∈ renamePlan exC4 → s = "default-anonymous-2" := by
  refine ⟨by decide, by decide, ?_⟩
  intro hall
  have := hall "default-anonymous-1" (by decide)
  simp at this

/-- C4 (amended): each bookmark-less secondary head of branch `b` receives
the synthesized name `synthName b n` where `n` is 1 plus the number of
bookmark-less secondaries processed before it in group order — the counter
advances only when a synthesized name is consumed, not once per secondary
head processed. -/
theorem C4_amended_synth_names (heads : List Head) (b : String)
    (pre post : List Head) (h : Head)
    (hkey : b ∈ branchKeys heads)
    (htail : (groupHeads heads b).tail = pre ++ h :: post)
    (hb : h.bookmark = none) :
    (h, synthName b (1 + pre.countP (fun x => x.bookmark.isNone))) ∈ renamePlan heads := by
  refine mem_renamePlan_iff.mpr ⟨b, hkey, ?_⟩
  simp only [groupRenames]
  rw [htail]
  exact newNames_synth b h post hb 1 pre

/-- Heads for the C4 witness: two bookmark-less secondaries on `default`,
which receive `default-anonymous-1` and `default-anonymous-2`. -/
def wD1 : Head := ⟨"d1", "default", 3, none⟩

def wD2 : Head := ⟨"d2", "default", 2, none⟩

def wD3 : Head := ⟨"d3", "default", 1, none⟩

def exC4b : List Head := [wD1, wD2, wD3]

theorem C4_witness :
    (wD3, synthName "default" 2) ∈ renamePlan exC4b ∧
    synthName "default" 2 = "default-anonymous-2" ∧
    (wD2, "default-anonymous-1") ∈ renamePlan exC4b :=
  ⟨C4_amended_synth_names exC4b "default" [wD2] [] wD3 (by decide) (by decide) rfl,
    rfl, by decide⟩

/-- Heads exhibiting the C1 counterexample: a secondary head of `default`
carries the bookmark `master`, which is also the branch name of another
head, so after disambiguation the name `master` belongs to two heads. -/
def wE1 : Head := ⟨"e1", "default", 2, none⟩

def wE2 : Head := ⟨"e2", "default", 1, some "master"⟩

def wE3 : Head := ⟨"e3", "master", 5, none⟩

def exC1 : List Head := [wE1, wE2, wE3]

/-- C1 counterexample: the final branch-name assignment is not injective in
general — `fix_branches` never checks a secondary head's new name against
existing branch names, so the bookmark `master` collides with the branch
`master` and two heads end up with the same final name. -/
theorem C1_counterexample :
    (wE2, "master") ∈ finalAssignment exC1 ∧
    (wE3, "master") ∈ finalAssignment exC1 ∧
    ¬ ((finalAssignment exC1).map Prod.snd).Nodup := by
  refine ⟨by decide, by decide, ?_⟩
  decide

theorem groupAssignment_snd {heads : List Head} {b : String}
    (hb : b ∈ branchKeys heads) :
    (groupAssignment heads b).map Prod.snd =
      b :: (groupRenames heads b).map Prod.snd := by
  obtain ⟨h, hmem, rfl⟩ := mem_branchKeys.mp hb
  have hne : groupHeads heads h.branch ≠ [] := by
    intro hnil
    have h1 : h ∈ groupHeads heads h.branch :=
      mem_sortDesc.mpr (mem_headsOfBranch.mpr ⟨hmem, rfl⟩)
    rw [hnil] at h1
    cases h1
  cases hg : groupHeads heads h.branch with
  | nil => exact absurd hg hne
  | cons p rest => simp [groupAssignment, groupRenames, hg]

/-- C1 (amended): the final branch-name assignment is injective over all
heads provided the new names given to secondary heads (bookmarks and
synthesized names) are pairwise distinct and none of them equals a branch
name present among the heads.  Without that proviso the assignment can
collide (see the counterexample); the code performs no collision check. -/
theorem C1_amended_injective (heads : List Head)
    (h1 : ((renamePlan heads).map Prod.snd).Nodup)
    (h2 : ∀ s ∈ (renamePlan heads).map Prod.snd, s ∉ branchKeys heads) :
    ((finalAssignment heads).map Prod.snd).Nodup := by
  have hplan : (renamePlan heads).map Prod.snd =
      (branchKeys heads).flatMap (fun b => (groupRenames heads b).map Prod.snd) := by
    simp [renamePlan, List.map_flatMap]
  have hfinal : (finalAssignment heads).map Prod.snd =
      (branchKeys heads).flatMap (fun b => (groupAssignment heads b).map Prod.snd) := by
    simp [finalAssignment, List.map_flatMap]
  rw [hfinal]
  rw [hplan] at h1 h2
  obtain ⟨hnd, hdisj⟩ := List.nodup_flatMap.mp h1
  refine List.nodup_flatMap.mpr ⟨?_, ?_⟩
  · intro b hb
    rw [groupAssignment_snd hb]
    refine List.Nodup.cons ?_ (hnd b hb)
    intro hmem
    exact h2 b (List.mem_flatMap.mpr ⟨b, hb, hmem⟩) hb
  · have hkeys : (branchKeys heads).Pairwise (fun a b => a ≠ b) := nodup_branchKeys heads
    refine (hkeys.and hdisj).imp_of_mem ?_
    intro a b ha hb hab
    obtain ⟨hne, hdj⟩ := hab
    simp only [Function.onFun] at hdj ⊢
    rw [groupAssignment_snd ha, groupAssignment_snd hb]
    intro x hxa hxb
    rcases List.mem_cons.mp hxa with rfl | hxa
    · rcases List.mem_cons.mp hxb with heq | hxb
      · exact hne heq
      · exact h2 x (List.mem_flatMap.mpr ⟨b, hb, hxb⟩) ha
    · rcases List.mem_cons.mp hxb with rfl | hxb
      · exact h2 x (List.mem_flatMap.mpr ⟨a, ha, hxa⟩) hb
      · exact hdj hxa hxb

/-- Heads for the C1 witness: branch `default` with a bookmarked secondary
(`feature`) and a bookmark-less secondary (`default-anonymous-1`); the new
names are distinct and collide with no branch name, so the final assignment
is injective. -/
def wF1 : Head := ⟨"f1", "default", 3, none⟩

def wF2 : Head := ⟨"f2", "default", 2, some "feature"⟩

def wF3 : Head := ⟨"f3", "default", 1, none⟩

def exC1b : List Head := [wF1, wF2, wF3]

theorem C1_witness : ((finalAssignment exC1b).map Prod.snd).Nodup :=
  C1_amended_injective exC1b (by decide) (by decide)

/-! ## The command trace of `fix_branches` -/

/-- The `hg` invocations `fix_branches` issues while renaming one secondary
head, in program order: `hg up`, `hg phase --draft --force`, `hg branch`,
`hg log --template {desc}` and `hg commit --amend -m`. -/
inductive HgCmd where
  | update (hash : String)
  | phaseDraft (hash : String)
  | setBranch (name : String)
  | logTemplate (hash : String)
  | commitAmend (msg : String)
  deriving DecidableEq, Repr

def headCmds (msgOf : String → String) (p : Head × String) : List HgCmd :=
  [.update p.1.hash, .phaseDraft p.1.hash, .setBranch p.2,
   .logTemplate p.1.hash, .commitAmend (msgOf p.1.hash)]

/-- Every `hg` command issued by `fix_branches`, in order; `msgOf` models
reading the commit message of a given hash back from the repository. -/
def fixBranchesTrace (msgOf : String → String) (heads : List Head) : List HgCmd :=
  (renamePlan heads).flatMap (headCmds msgOf)

/-- C10: when every branch present among the heads has at most one head, the
rename plan is empty, so `fix_branches` issues no commands at all and the
repository is left untouched. -/
theorem C10_single_headed_repo_untouched (msgOf : String → String) (heads : List Head)
    (hsingle : ∀ b ∈ branchKeys heads, (headsOfBranch heads b).length ≤ 1) :
    renamePlan heads = [] ∧ fixBranchesTrace msgOf heads = [] := by
  have hplan : renamePlan heads = [] := by
    rw [renamePlan, List.flatMap_eq_nil_iff]
    intro b hb
    have hlen : (groupHeads heads b).length ≤ 1 := by
      rw [show groupHeads heads b = sortDesc (headsOfBranch heads b) from rfl,
        length_sortDesc]
      exact hsingle b hb
    have htail : (groupHeads heads b).tail = [] := by
      cases hg : groupHeads heads b with
      | nil => rfl
      | cons p rest =>
        rw [hg] at hlen
        simp only [List.length_cons] at hlen
        have : rest = [] := List.eq_nil_of_length_eq_zero (by omega)
        rw [this]
        rfl
    rw [groupRenames, htail]
    rfl
  exact ⟨hplan, by rw [fixBranchesTrace, hplan]; rfl⟩

/-- Heads for the C10 witness: two branches with one head each. -/
def exC10 : List Head := [⟨"g1", "alpha", 1, none⟩, ⟨"g2", "beta", 2, none⟩]

theorem C10_witness :
    renamePlan exC10 = [] ∧ fixBranchesTrace (fun _ => "") exC10 = [] :=
  C10_single_headed_repo_untouched (fun _ => "") exC10 (by decide)

/-! ## The `--bash` scan of `main` -/

/-- `arg.startswith('--bash')` at the character level. -/
def strStartsWith (s pre : String) : Bool :=
  pre.data.isPrefixOf s.data

/-- The characters after the first `=`, if any. -/
def afterChar : List Char → Option (List Char)
  | [] => none
  | c :: rest => if c = '=' then some rest else afterChar rest

/-- `arg.split('=', 1)[1]`: everything after the first `=`; `none` models the
IndexError python raises when the argument contains no `=`. -/
def splitAfterEq (arg : String) : Option String :=
  match afterChar arg.data with
  | some cs => some ⟨cs⟩
  | none => none

/-- Outcome of the argument scan at the top of `main`. -/
inductive BashScan where
  | exitMissingBash
  | indexError
  | done (bash : Option String)
  deriving DecidableEq, Repr

/-- The `--bash` scan of `main`, translated as written: for each argument in
turn, if it starts with `--bash`, take the part after `=` as the shell path
and stop; otherwise, when `os.name == 'nt'`, write the missing-flag message
and exit with status 1 immediately; on other platforms set BASH to
`/bin/bash` and continue.  `done none` means the loop finished without ever
assigning BASH (empty argv). -/
def bashLoop (isNT : Bool) : List String → Option String → BashScan
  | [], acc => .done acc
  | arg :: rest, acc =>
    if strStartsWith arg "--bash" then
      match splitAfterEq arg with
      | some path => .done (some path)
      | none => .indexError
    else if isNT then .exitMissingBash
    else bashLoop isNT rest (some "/bin/bash")

def mainBashScan (isNT : Bool) (argv : List String) : BashScan :=
  bashLoop isNT argv none

/-- C8: on Windows the missing-shell check sits inside the loop body, so it
fires on the very first argument that does not start with `--bash` — and
`sys.argv[0]` is the script path, which never does.  `main` therefore exits
with status 1 and the missing-flag message even when a `--bash=...` flag is
supplied, contradicting the claim; on platforms with a default shell the
same argument vector picks up the supplied path. -/
theorem C8_missing_bash_check_fires_despite_flag :
    mainBashScan true ["exporter.py", "--bash=C:/Git/bin/bash.exe", "repos.json"]
      = .exitMissingBash ∧
    mainBashScan false ["exporter.py", "--bash=C:/Git/bin/bash.exe", "repos.json"]
      = .done (some "C:/Git/bin/bash.exe") := by
  constructor <;> rfl

/-! ## Process state: working directory, filesystem, lifecycle -/

/-- Exceptions a step can propagate: a python exception (a failing external
command, `CalledProcessError`, OSError, ...) or `sys.exit(n)`
(`SystemExit`). -/
inductive Err where
  | exc
  | exit (code : Nat)
  deriving DecidableEq, Repr

/-- The process state the embedding tracks: the current working directory,
the existing filesystem paths, the lines printed, and the external commands
invoked so far. -/
structure World where
  cwd : String
  paths : List String
  output : List String
  cmds : List (List String)
  deriving DecidableEq, Repr

/-- A python computation: it returns a value or propagates an exception,
while updating the world. -/
def M (α : Type) : Type := World → Except Err α × World

def pureM {α : Type} (a : α) : M α := fun w => (.ok a, w)

def bindM {α β : Type} (m : M α) (f : α → M β) : M β := fun w =>
  match m w with
  | (.ok a, w') => f a w'
  | (.error e, w') => (.error e, w')

/-- `try: body finally: fin` — the finalizer runs on the normal and on the
exceptional path alike; an exception raised by the finalizer replaces the
in-flight one. -/
def tryFinallyM {α : Type} (body : M α) (fin : M Unit) : M α := fun w =>
  match body w with
  | (.ok a, w') =>
    match fin w' with
    | (.ok _, w'') => (.ok a, w'')
    | (.error e, w'') => (.error e, w'')
  | (.error e, w') =>
    match fin w' with
    | (.ok _, w'') => (.error e, w'')
    | (.error e', w'') => (.error e', w'')

def getcwdM : M String := fun w => (.ok w.cwd, w)

def chdirM (d : String) : M Unit := fun w => (.ok (), { w with cwd := d })

def pathExistsM (p : String) : M Bool := fun w => (.ok (decide (p ∈ w.paths)), w)

def mkdirM (p : String) : M Unit := fun w =>
  (.ok (), { w with paths := if p ∈ w.paths then w.paths else w.paths ++ [p] })

def rmtreeM (p : String) : M Unit := fun w =>
  (.ok (), { w with paths := w.paths.filter (fun q => q ≠ p) })

def printM (s : String) : M Unit := fun w =>
  (.ok (), { w with output := w.output ++ [s] })

def exitM {α : Type} (n : Nat) : M α := fun w => (.error (.exit n), w)

def runCmdM (argv : List String) : M Unit := fun w =>
  (.ok (), { w with cmds := w.cmds ++ [argv] })

/-- `switch_directory`: remember the current directory, chdir into `d`, run
the body, and chdir back in a `finally`. -/
def switch_directory {α : Type} (d : String) (body : M α) : M α :=
  bindM getcwdM fun cwd =>
    tryFinallyM (bindM (chdirM d) fun _ => body) (chdirM cwd)

def alreadyExistsMsg (git : String) : String :=
  "repo " ++ git ++ " already exists, please delete it and run this script again"

/-- `init_git_repo`: refuse to touch an existing destination (message plus
`sys.exit(1)`), otherwise create the directory, run `git init` and set
`core.ignoreCase` from inside the new repository. -/
def init_git_repo (git : String) : M Unit :=
  bindM (pathExistsM git) fun b =>
    if b then bindM (printM (alreadyExistsMsg git)) fun _ => exitM 1
    else
      bindM (mkdirM git) fun _ =>
        bindM (runCmdM ["git", "init", git]) fun _ =>
          switch_directory git
            (runCmdM ["git", "config", "core.ignoreCase", "false"])

/-- `copy_hg_repo`: create the disposable copy at the freshly generated
temporary path (the random-suffix path is a parameter here). -/
def copy_hg_repo (copyPath : String) : M Unit := mkdirM copyPath

/-- `process_repo`: initialize the destination, make the disposable copy,
then run disambiguation and conversion with removal of the copy in a
`finally`.  `fix_branches` and `convert` consist of external `hg`, `git` and
shell invocations that may fail in arbitrary ways, so their behaviors are
parameters. -/
def process_repo (git copyPath : String) (fixB convB : M Unit) : M Unit :=
  bindM (init_git_repo git) fun _ =>
    bindM (copy_hg_repo copyPath) fun _ =>
      tryFinallyM (bindM fixB fun _ => convB) (rmtreeM copyPath)

/-- C9: `switch_directory` restores the original working directory on every
exit path: whatever the body does — succeed, raise, or call `sys.exit` —
the working directory after the call equals the one before it. -/
theorem C9_switch_directory_restores_cwd {α : Type} (d : String) (body : M α)
    (w : World) :
    ((switch_directory d body) w).2.cwd = w.cwd := by
  simp only [switch_directory, bindM, getcwdM, tryFinallyM, chdirM]
  cases hb : body { w with cwd := d } with
  | mk r w' => cases r <;> rfl

/-- C6: whenever the destination does not pre-exist — so initialization gets
past its existence check and the disposable copy is created — the copy is no
longer on disk after `process_repo`, whatever `fix_branches` and `convert`
do: succeed, raise, or exit.  The `finally` around the two steps removes the
copy on every path. -/
theorem C6_copy_removed_on_all_paths (git copyPath : String)
    (fixB convB : M Unit) (w : World) (hgit : git ∉ w.paths) :
    copyPath ∉ ((process_repo git copyPath fixB convB) w).2.paths := by
  have hdec : decide (git ∈ w.paths) = false := decide_eq_false hgit
  have key : ∀ (body : M Unit) (w' : World),
      copyPath ∉ ((tryFinallyM body (rmtreeM copyPath)) w').2.paths := by
    intro body w'
    simp only [tryFinallyM, rmtreeM]
    cases hb : body w' with
    | mk r w'' => cases r <;> simp [List.mem_filter]
  have hstep : ∃ w2, (process_repo git copyPath fixB convB) w =
      (tryFinallyM (bindM fixB fun _ => convB) (rmtreeM copyPath)) w2 := by
    simp only [process_repo, init_git_repo, copy_hg_repo, bindM, pathExistsM,
      mkdirM, runCmdM, switch_directory, getcwdM, chdirM, tryFinallyM,
      printM, exitM, hdec, hgit]
    exact ⟨_, rfl⟩
  obtain ⟨w2, hw2⟩ := hstep
  rw [hw2]
  exact key _ w2

/-- C7: when the destination path already exists, `process_repo` prints the
already-exists message and raises `SystemExit(1)` before anything else
happens: the filesystem, the working directory and the command trace are
exactly as before the call, and no lifecycle step runs. -/
theorem C7_no_clobber (git copyPath : String) (fixB convB : M Unit)
    (w : World) (hgit : git ∈ w.paths) :
    (process_repo git copyPath fixB convB) w =
      (.error (.exit 1), { w with output := w.output ++ [alreadyExistsMsg git] }) := by
  have hdec : decide (git ∈ w.paths) = true := decide_eq_true hgit
  simp only [process_repo, init_git_repo, bindM, pathExistsM, printM, exitM,
    hdec, if_true]

/-- Worlds and step behaviors for the C6/C7 witnesses: `raiseB` is a step
whose external command fails. -/
def raiseB : M Unit := fun w => (.error .exc, w)

def wFresh : World := ⟨"/home", ["/home", "/src/repo"], [], []⟩

def wTaken : World := ⟨"/home", ["/home", "/src/repo", "/dst"], [], []⟩

theorem C6_witness :
    "/tmp/copy-abc" ∉ ((process_repo "/dst" "/tmp/copy-abc" raiseB raiseB) wFresh).2.paths :=
  C6_copy_removed_on_all_paths "/dst" "/tmp/copy-abc" raiseB raiseB wFresh (by decide)

theorem C7_witness :
    (process_repo "/dst" "/tmp/copy-abc" raiseB raiseB) wTaken =
      (.error (.exit 1),
        { wTaken with output := wTaken.output ++ [alreadyExistsMsg "/dst"] }) :=
  C7_no_clobber "/dst" "/tmp/copy-abc" raiseB raiseB wTaken (by decide)
